import Mathlib

/-
Verification of the giterdone scanner component (package `scanner`,
functions `ScanFiles` and `GenerateGitignoreContent`).

Strings are modelled as lists of characters (`Str`), so that the Go
standard-library string operations used by the scanner (`strings.HasPrefix`,
`strings.HasSuffix`, `strings.TrimSuffix`, `strings.TrimPrefix`,
`filepath.Base`, `filepath.Join`) become elementary list operations.

The filesystem seen by one run of `ScanFiles` is modelled by the inductive
type `FSNode`: a node is a plain file with a size, a directory with a list
of child nodes, or an entry whose `lstat` fails during the walk (Go calls
the walk callback with a non-nil `err` for such entries; the callback logs
and continues).  An include path is a pair of the path string and the
result of `os.Stat` on it: `none` when the stat fails, otherwise the node.

Go's `filepath.Walk` visits the entries of each directory in sorted order
(it reads the directory names and sorts them).  The model obtains the same
visit order by first canonicalising the tree (`canon`, which recursively
sorts every list of siblings by name) and then traversing lists in the
order given.  This keeps every function structurally recursive, hence
computable by the kernel.
-/

namespace Giterdone

/-- Strings as lists of characters. -/
abbrev Str := List Char

/-- Go `strings.HasPrefix s pre`. -/
def startsWith (s pre : Str) : Bool := decide (pre <+: s)

/-- Go `strings.HasSuffix s suff`. -/
def endsWith (s suff : Str) : Bool := decide (suff <:+ s)

/-- Go `strings.TrimSuffix s suff`: drop `suff` from the end of `s` when it is
a suffix, otherwise return `s` unchanged. -/
def trimSuffix (s suff : Str) : Str :=
  if suff <:+ s then s.take (s.length - suff.length) else s

/-- Go `strings.TrimPrefix s pre`: drop `pre` from the front of `s` when it
is a leading part of `s`, otherwise return `s` unchanged. -/
def trimLeading (s pre : Str) : Str :=
  if pre <+: s then s.drop pre.length else s

/-- Go `filepath.Base` for the paths that occur in a walk (nonempty, no
trailing separator): the part after the last `/`. -/
def baseName (p : Str) : Str :=
  (p.reverse.takeWhile (fun c => c ≠ '/')).reverse

/-- Go `filepath.Join parent name` as produced by `filepath.Walk` for a child
entry: `parent ++ "/" ++ name`. -/
def childPath (parent name : Str) : Str := parent ++ '/' :: name

/-- The scanner's size ceiling: `maxFileSize = 100 * 1024 * 1024` bytes. -/
def maxFileSize : Nat := 100 * 1024 * 1024

/-- The fixed package-level `excludePatterns` list of the scanner, verbatim. -/
def excludePatterns : List Str :=
  ([".DS_Store", "Thumbs.db", "*.log", "*.tmp", "*.bak", "*.swp", "*.swo",
    "*.exe", "*.dll", "*.so", "*.dylib", "*.o", "*.obj", "*.pyc", "*.class",
    "*.jar", "*.war", "*.ear", "*.zip", "*.tar", "*.gz", "*.rar", "*.7z",
    "*.iso", "*.dmg", "*.bin", "*.dat", "*.db", "*.sqlite", "*.sql", "*.psd",
    "*.ai", "*.eps", "*.pdf", "*.doc", "*.docx", "*.xls", "*.xlsx", "*.ppt",
    "*.pptx", "*.odt", "*.ods", "*.odp", "*.mp3", "*.wav", "*.flac", "*.aac",
    "*.ogg", "*.wma", "*.mp4", "*.mkv", "*.avi", "*.mov", "*.wmv", "*.flv",
    "*.webm", "*.jpg", "*.jpeg", "*.png", "*.gif", "*.bmp", "*.tiff",
    "*.webp", "*.ico", "*.svg", "node_modules/", ".git/", ".vscode/",
    ".idea/", "__pycache__/", "build/", "dist/", "bin/", "obj/", "pkg/",
    "vendor/", "tmp/", "temp/", "cache/", "logs/", "output/", "report/",
    "target/", "*.pid", "*.lock", "*.iml", "*.ipr", "*.iws"] :
    List String).map String.toList

/-- The directory test of `ScanFiles` (source line 137): some pattern ends in
`/` and the full walk path (not the base name) ends with the pattern with its
last byte removed. -/
def dirMatches (path : Str) : Bool :=
  excludePatterns.any fun pattern =>
    endsWith pattern ['/'] && endsWith path pattern.dropLast

/-- The file test of `ScanFiles` (source lines 154-159 and 180-185): some
pattern that does not end in `/` either starts the base name after stripping
a trailing `*` from the pattern, or ends the base name after stripping a
leading `*` from the pattern. -/
def fileMatches (base : Str) : Bool :=
  excludePatterns.any fun pattern =>
    !endsWith pattern ['/'] &&
      (startsWith base (trimSuffix pattern ['*']) ||
        endsWith base (trimLeading pattern ['*']))

/-- Directory matching as the specification words it (section 4.1): the base
name equals the pattern with the trailing `/` stripped.  Stated only to be
compared against the source-level `dirMatches`. -/
def specDirMatches (base : Str) : Bool :=
  excludePatterns.any fun pattern =>
    endsWith pattern ['/'] && base == pattern.dropLast

/-- One node of the directory tree examined by a walk. -/
inductive FSNode where
  | file (name : Str) (size : Nat)
  | dir (name : Str) (children : List FSNode)
  | walkError (name : Str)

/-- The entry name of a node. -/
def nodeName : FSNode → Str
  | .file name _ => name
  | .dir name _ => name
  | .walkError name => name

/-- Name order used by `filepath.Walk` when it sorts directory entries. -/
def nameLe (a b : FSNode) : Prop := nodeName a ≤ nodeName b

instance : DecidableRel nameLe :=
  fun a b => inferInstanceAs (Decidable (nodeName a ≤ nodeName b))

instance : IsTotal FSNode nameLe := ⟨fun a b => le_total (nodeName a) (nodeName b)⟩

instance : IsTrans FSNode nameLe := ⟨fun _ _ _ h₁ h₂ => le_trans h₁ h₂⟩

/-- Sort a list of sibling nodes by name, as `filepath.Walk` does before
visiting them. -/
def sortByName (children : List FSNode) : List FSNode :=
  List.insertionSort nameLe children

mutual

/-- Recursively sort every list of siblings by name.  Walking the
canonicalised tree in list order produces exactly the visit order of Go's
`filepath.Walk`, which sorts each directory's entries before descending. -/
def canon : FSNode → FSNode
  | .file name size => .file name size
  | .dir name children => .dir name (sortByName (canonList children))
  | .walkError name => .walkError name

/-- Canonicalise each node of a sibling list. -/
def canonList : List FSNode → List FSNode
  | [] => []
  | c :: cs => canon c :: canonList cs

end

/-- How the walk callback classifies one visited entry.  The first five
constructors produce (or suppress) a record; `descended` is a non-matching
directory the walk enters, and `rootSkipped` is the walk root, skipped by
the `path == p` test before any other check. -/
inductive Outcome where
  | included
  | excludedBySize
  | excludedByPattern
  | excludedByDirRule
  | skipStatError
  | descended
  | rootSkipped
deriving DecidableEq

mutual

/-- The walk callback of `ScanFiles` (source lines 123-169) applied to one
non-root entry, producing the visit trace of the entry and everything below
it.  `parent` is the path of the containing directory. -/
def visitChild (parent : Str) : FSNode → List (Str × Outcome)
  | .walkError name => [(childPath parent name, .skipStatError)]
  | .file name size =>
      if size > maxFileSize then [(childPath parent name, .excludedBySize)]
      else if fileMatches (baseName (childPath parent name)) then
        [(childPath parent name, .excludedByPattern)]
      else [(childPath parent name, .included)]
  | .dir name children =>
      if dirMatches (childPath parent name) then
        [(childPath parent name, .excludedByDirRule)]
      else (childPath parent name, .descended) :: visitChildren (childPath parent name) children

/-- Visit a list of sibling entries in order. -/
def visitChildren (parent : Str) : List FSNode → List (Str × Outcome)
  | [] => []
  | c :: cs => visitChild parent c ++ visitChildren parent cs

end

/-- An include path as `ScanFiles` sees it: the path string and the result of
`os.Stat` (`none` when the stat fails and the path is skipped with a
warning, source lines 116-120). -/
abbrev IncludeEntry := Str × Option FSNode

/-- Canonicalise the resolved tree of an include entry. -/
def canonEntry (e : IncludeEntry) : IncludeEntry := (e.1, e.2.map canon)

/-- Process one include entry of a canonicalised resolution: a failed stat
contributes nothing; a directory is walked (the root itself is skipped by
the `path == p` test, source lines 129-132, which only the root can pass
since every deeper path strictly extends `p`); a plain file gets the size
check and then the file-pattern check (source lines 170-193). -/
def scanEntryCore : IncludeEntry → List (Str × Outcome)
  | (_, none) => []
  | (p, some (.dir _ children)) => (p, .rootSkipped) :: visitChildren p children
  | (p, some (.file _ size)) =>
      if size > maxFileSize then [(p, .excludedBySize)]
      else if fileMatches (baseName p) then [(p, .excludedByPattern)]
      else [(p, .included)]
  | (_, some (.walkError _)) => []

/-- Process one include entry of `ScanFiles`. -/
def scanEntry (e : IncludeEntry) : List (Str × Outcome) :=
  scanEntryCore (canonEntry e)

/-- The full visit trace of one run of `ScanFiles`: include entries are
processed in order (source line 115). -/
def scanTrace (entries : List IncludeEntry) : List (Str × Outcome) :=
  entries.flatMap scanEntry

/-- What a visit appends to `filesToInclude`: the full path, for an included
file only (source lines 167 and 192). -/
def includeRecord : Str × Outcome → Option Str
  | (p, .included) => some p
  | _ => none

/-- What a visit appends to `patternsToExclude`: the base name for an
oversized or pattern-matched file (source lines 148, 163, 174, 189), the
base name plus `/` for a pruned directory (source line 138), nothing
otherwise. -/
def excludeRecord : Str × Outcome → Option Str
  | (p, .excludedBySize) => some (baseName p)
  | (p, .excludedByPattern) => some (baseName p)
  | (p, .excludedByDirRule) => some (baseName p ++ ['/'])
  | _ => none

/-- `ScanFiles`: the pair `(filesToInclude, patternsToExclude)` accumulated
over the whole visit trace in order. -/
def ScanFiles (entries : List IncludeEntry) : List Str × List Str :=
  ((scanTrace entries).filterMap includeRecord,
   (scanTrace entries).filterMap excludeRecord)

/-- `GenerateGitignoreContent` (source lines 200-210): a `strings.Builder`
that receives the two header comment lines, a blank line, and then each
pattern followed by a newline. -/
def GenerateGitignoreContent (excludedPatterns : List Str) : Str :=
  excludedPatterns.foldl (fun sb pattern => sb ++ (pattern ++ ['\n']))
    (("# Giterdone generated .gitignore\n").toList ++
      ("# Files and directories automatically excluded by Giterdone\n\n").toList)

/-- Split a string at newline characters; measuring apparatus for the shape
of the generated ignore file (`n` separators produce `n + 1` pieces). -/
def splitNL : Str → List Str
  | [] => [[]]
  | c :: cs =>
      if c = '\n' then [] :: splitNL cs
      else (c :: (splitNL cs).headD []) :: (splitNL cs).tail

/-- A well-formed entry name: nonempty and free of the path separator. -/
def goodName (n : Str) : Bool := !n.isEmpty && !n.contains '/'

mutual

/-- Well-formedness of a tree as any real filesystem provides it: every name
is nonempty and slash-free, and sibling names are distinct. -/
def WFb : FSNode → Bool
  | .file name _ => goodName name
  | .walkError name => goodName name
  | .dir name children =>
      goodName name && decide ((children.map nodeName).Nodup) && WFbList children

/-- Well-formedness of every node of a sibling list. -/
def WFbList : List FSNode → Bool
  | [] => true
  | c :: cs => WFb c && WFbList cs

end

/-- Well-formedness of the resolved tree of an include entry. -/
def entryWF (e : IncludeEntry) : Bool :=
  match e.2 with
  | none => true
  | some n => WFb n

/-- `properExt p q` states that `q` is a path strictly inside the directory
at path `p`: it extends `p` past a separator. -/
def properExt (p q : Str) : Prop := p ++ ['/'] <+: q

/-- Two include paths name disjoint filesystem regions: neither equals nor
lies inside the other. -/
def NonNested (p q : Str) : Prop := p ≠ q ∧ ¬ properExt p q ∧ ¬ properExt q p

instance (p q : Str) : Decidable (properExt p q) :=
  inferInstanceAs (Decidable (p ++ ['/'] <+: q))

instance (p q : Str) : Decidable (NonNested p q) :=
  inferInstanceAs (Decidable (p ≠ q ∧ ¬ properExt p q ∧ ¬ properExt q p))

/-- A path tail that either is empty or continues past a separator. -/
def SlashOk (u : Str) : Prop := u = [] ∨ ∃ r, u = '/' :: r

/-- `inNs parent name q` states that `q` is the path `parent/name` itself or
a path strictly inside it: the name space of the child `name` of `parent`. -/
def inNs (parent name q : Str) : Prop :=
  ∃ u, SlashOk u ∧ q = childPath parent name ++ u

/-- The five classification outcomes named by the specification. -/
def FiveClass : Outcome → Bool
  | .included => true
  | .excludedBySize => true
  | .excludedByPattern => true
  | .excludedByDirRule => true
  | .skipStatError => true
  | .descended => false
  | .rootSkipped => false

/-- Whether a node is a directory. -/
def isDirNode : FSNode → Bool
  | .dir _ _ => true
  | _ => false

mutual

/-- Whether some directory strictly inside this node carries the given name. -/
def hasDirNamed (target : Str) : FSNode → Bool
  | .dir _ children => hasDirNamedList target children
  | _ => false

/-- Whether a sibling list contains, at any depth, a directory with the
given name. -/
def hasDirNamedList (target : Str) : List FSNode → Bool
  | [] => false
  | c :: cs =>
      (isDirNode c && nodeName c == target) || hasDirNamed target c ||
        hasDirNamedList target cs

end

/-! General-purpose lemmas about the model. -/

theorem visitChildren_eq_flatMap (parent : Str) (cs : List FSNode) :
    visitChildren parent cs = cs.flatMap (visitChild parent) := by
  induction cs with
  | nil => rfl
  | cons c cs ih => simp [visitChildren, ih]

theorem canonList_eq_map (cs : List FSNode) : canonList cs = cs.map canon := by
  induction cs with
  | nil => rfl
  | cons c cs ih => simp [canonList, ih]

theorem WFbList_iff (cs : List FSNode) :
    WFbList cs = true ↔ ∀ c ∈ cs, WFb c = true := by
  induction cs with
  | nil => simp [WFbList]
  | cons c cs ih => simp [WFbList, ih]

theorem WFb_dir_iff (name : Str) (cs : List FSNode) :
    WFb (.dir name cs) = true ↔
      goodName name = true ∧ (cs.map nodeName).Nodup ∧ ∀ c ∈ cs, WFb c = true := by
  simp [WFb, WFbList_iff, and_assoc]

theorem takeWhile_all {p : Char → Bool} :
    ∀ {l : Str}, (∀ x ∈ l, p x = true) → l.takeWhile p = l := by
  intro l
  induction l with
  | nil => intro _; rfl
  | cons c cs ih =>
      intro h
      have hc : p c = true := h c (List.mem_cons_self c cs)
      simp [List.takeWhile_cons, hc, ih fun x hx => h x (List.mem_cons_of_mem c hx)]

theorem takeWhile_append_stop {p : Char → Bool} {c : Char} (hc : p c = false) :
    ∀ (a b : Str), (∀ x ∈ a, p x = true) → (a ++ c :: b).takeWhile p = a := by
  intro a
  induction a with
  | nil => intro b _; simp [List.takeWhile_cons, hc]
  | cons x xs ih =>
      intro b h
      have hx : p x = true := h x (List.mem_cons_self x xs)
      simp only [List.cons_append, List.takeWhile_cons, hx, if_true]
      simp [ih b fun y hy => h y (List.mem_cons_of_mem x hy)]

theorem takeWhile_mem_pred {p : Char → Bool} :
    ∀ {l : Str} {x : Char}, x ∈ l.takeWhile p → p x = true := by
  intro l
  induction l with
  | nil => intro x hx; simp [List.takeWhile_nil] at hx
  | cons c cs ih =>
      intro x hx
      by_cases hc : p c = true
      · rw [List.takeWhile_cons, if_pos hc] at hx
        rcases List.mem_cons.mp hx with h | h
        · exact h ▸ hc
        · exact ih h
      · rw [List.takeWhile_cons, if_neg hc] at hx
        exact absurd hx (List.not_mem_nil x)

theorem baseName_no_slash (q : Str) : '/' ∉ baseName q := by
  intro hmem
  unfold baseName at hmem
  rw [List.mem_reverse] at hmem
  have := takeWhile_mem_pred hmem
  simp at this

theorem baseName_of_no_slash {q : Str} (h : '/' ∉ q) : baseName q = q := by
  unfold baseName
  rw [takeWhile_all, List.reverse_reverse]
  intro x hx
  have hxq : x ∈ q := List.mem_reverse.mp hx
  simp only [decide_eq_true_eq]
  exact fun he => h (he ▸ hxq)

theorem baseName_childPath (p name : Str) (h : '/' ∉ name) :
    baseName (childPath p name) = name := by
  unfold baseName childPath
  have : (p ++ '/' :: name).reverse = name.reverse ++ '/' :: p.reverse := by
    simp
  rw [this, takeWhile_append_stop (by simp)]
  · exact List.reverse_reverse name
  · intro x hx
    have hxn : x ∈ name := List.mem_reverse.mp hx
    simp only [decide_eq_true_eq]
    exact fun he => h (he ▸ hxn)

theorem endsWith_iff {s t : Str} : endsWith s t = true ↔ t <:+ s := by
  simp [endsWith]

theorem startsWith_iff {s t : Str} : startsWith s t = true ↔ t <+: s := by
  simp [startsWith]

theorem endsWith_append (a b : Str) : endsWith (a ++ b) b = true :=
  endsWith_iff.mpr (List.suffix_append a b)

/-! Path-shape lemmas: every path a walk visits lies in the name space of the
child it came from, and distinct sibling names give disjoint name spaces. -/

theorem properExt_childPath (p name : Str) : properExt p (childPath p name) :=
  ⟨name, by simp [childPath]⟩

theorem properExt_length {p q : Str} (h : properExt p q) : p.length < q.length := by
  rcases h with ⟨t, ht⟩
  subst ht
  simp

theorem properExt_irrefl (p : Str) : ¬ properExt p p :=
  fun h => absurd (properExt_length h) (lt_irrefl p.length)

theorem properExt_step {p name q : Str} (h : properExt (childPath p name) q) :
    properExt p q := by
  rcases h with ⟨t, ht⟩
  exact ⟨name ++ '/' :: t, by simpa [childPath] using ht⟩

theorem inNs_self (p name : Str) : inNs p name (childPath p name) :=
  ⟨[], Or.inl rfl, by simp⟩

theorem inNs_ext {p name q r : Str} (h : inNs p name q) (h' : properExt q r) :
    inNs p name r := by
  rcases h with ⟨u, hu, hq⟩
  rcases h' with ⟨t, ht⟩
  refine ⟨u ++ '/' :: t, ?_, by rw [← ht, hq]; simp⟩
  rcases hu with h0 | ⟨s, hs⟩
  · exact Or.inr ⟨t, by rw [h0]; rfl⟩
  · exact Or.inr ⟨s ++ '/' :: t, by rw [hs]; rfl⟩

theorem inNs_properExt {p name q : Str} (h : inNs p name q) : properExt p q := by
  rcases h with ⟨u, _, hq⟩
  exact ⟨name ++ u, by rw [hq]; simp [childPath]⟩

theorem pref_total : ∀ {c a b : Str}, a <+: c → b <+: c → a <+: b ∨ b <+: a := by
  intro c
  induction c with
  | nil =>
      intro a b ha hb
      rw [List.prefix_nil] at ha hb
      exact Or.inl (ha ▸ hb ▸ List.nil_prefix)
  | cons x xs ih =>
      intro a b ha hb
      match a, b with
      | [], _ => exact Or.inl (List.nil_prefix)
      | _, [] => exact Or.inr (List.nil_prefix)
      | a1 :: as, b1 :: bs =>
          rw [List.cons_prefix_cons] at ha hb
          rcases ih ha.2 hb.2 with h | h
          · exact Or.inl (List.cons_prefix_cons.mpr ⟨ha.1.trans hb.1.symm, h⟩)
          · exact Or.inr (List.cons_prefix_cons.mpr ⟨hb.1.trans ha.1.symm, h⟩)

theorem ns_name_eq_aux {na nb u v : Str} (hb : '/' ∉ nb)
    (h : na ++ u = nb ++ v) (hu : SlashOk u) (hpre : na <+: nb) : na = nb := by
  rcases hpre with ⟨t, ht⟩
  cases t with
  | nil => simpa using ht
  | cons c t' =>
      exfalso
      have hu' : u = c :: (t' ++ v) := by
        have : na ++ u = na ++ (c :: t' ++ v) := by rw [h, ← ht]; simp
        simpa using List.append_cancel_left this
      have hc : c = '/' := by
        rcases hu with h0 | ⟨r, hr⟩
        · rw [h0] at hu'; exact absurd hu'.symm (List.cons_ne_nil c (t' ++ v))
        · rw [hr] at hu'; exact (List.cons.injEq _ _ _ _ ▸ hu').1.symm
      apply hb
      rw [← ht]
      subst hc
      exact List.mem_append_right na (List.mem_cons_self '/' t')

theorem ns_name_eq {na nb u v : Str} (ha : '/' ∉ na) (hb : '/' ∉ nb)
    (h : na ++ u = nb ++ v) (hu : SlashOk u) (hv : SlashOk v) : na = nb := by
  have h1 : na <+: nb ++ v := h ▸ ⟨u, rfl⟩
  have h2 : nb <+: nb ++ v := ⟨v, rfl⟩
  rcases pref_total h1 h2 with hp | hp
  · exact ns_name_eq_aux hb h hu hp
  · exact (ns_name_eq_aux ha h.symm hv hp).symm

theorem inNs_name_eq {p na nb q : Str} (ha : '/' ∉ na) (hb : '/' ∉ nb)
    (h1 : inNs p na q) (h2 : inNs p nb q) : na = nb := by
  rcases h1 with ⟨u, hu, hqu⟩
  rcases h2 with ⟨v, hv, hqv⟩
  have key : na ++ u = nb ++ v := by
    have : p ++ '/' :: (na ++ u) = p ++ '/' :: (nb ++ v) := by
      have := hqu.symm.trans hqv
      simpa [childPath] using this
    have := List.append_cancel_left this
    simpa using this
  exact ns_name_eq ha hb key hu hv

theorem mem_visitChildren {parent : Str} {cs : List FSNode} {e : Str × Outcome} :
    e ∈ visitChildren parent cs ↔ ∃ c ∈ cs, e ∈ visitChild parent c := by
  rw [visitChildren_eq_flatMap, List.mem_flatMap]

theorem goodName_no_slash {n : Str} (h : goodName n = true) : '/' ∉ n := by
  intro hm
  unfold goodName at h
  rw [Bool.and_eq_true] at h
  have h2 := h.2
  rw [Bool.not_eq_true'] at h2
  have hc : n.contains '/' = true := List.elem_iff.mpr hm
  rw [h2] at hc
  exact Bool.false_ne_true hc

theorem WFb_goodName : ∀ {c : FSNode}, WFb c = true → goodName (nodeName c) = true := by
  intro c h
  cases c with
  | file name size => simpa [WFb, nodeName] using h
  | walkError name => simpa [WFb, nodeName] using h
  | dir name cs =>
      rw [WFb, Bool.and_eq_true, Bool.and_eq_true] at h
      exact h.1.1

theorem visit_inNs : ∀ (n : FSNode) (parent : Str),
    ∀ e ∈ visitChild parent n, inNs parent (nodeName n) e.1
  | FSNode.walkError name, parent => by
      intro e he
      simp only [visitChild, List.mem_singleton] at he
      rw [he]
      exact inNs_self parent name
  | FSNode.file name size, parent => by
      intro e he
      have h1 : e.1 = childPath parent name := by
        unfold visitChild at he
        split at he <;> try (simp at he; rw [he])
        split at he <;> (simp at he; rw [he])
      rw [h1]
      exact inNs_self parent name
  | FSNode.dir name cs, parent => by
      intro e he
      unfold visitChild at he
      split at he
      · simp only [List.mem_singleton] at he
        rw [he]
        exact inNs_self parent name
      · rcases List.mem_cons.mp he with h | h
        · rw [h]
          exact inNs_self parent name
        · rcases mem_visitChildren.mp h with ⟨c, hc, hec⟩
          have hrec := visit_inNs c (childPath parent name) e hec
          exact inNs_ext (inNs_self parent name) (inNs_properExt hrec)
termination_by n _ => sizeOf n
decreasing_by
  have h1 := List.sizeOf_lt_of_mem hc
  simp only [FSNode.dir.sizeOf_spec]
  omega

theorem visit_properExt {n : FSNode} {parent : Str} {e : Str × Outcome}
    (he : e ∈ visitChild parent n) : properExt parent e.1 :=
  inNs_properExt (visit_inNs n parent e he)

mutual

theorem visit_nodup : ∀ (n : FSNode) (parent : Str), WFb n = true →
    ((visitChild parent n).map Prod.fst).Nodup
  | FSNode.walkError name, parent, _ => by simp [visitChild]
  | FSNode.file name size, parent, _ => by
      unfold visitChild
      split
      · simp
      · split <;> simp
  | FSNode.dir name cs, parent, h => by
      unfold visitChild
      split
      · simp
      · rw [WFb_dir_iff] at h
        obtain ⟨hg, hnd, hwf⟩ := h
        simp only [List.map_cons, List.nodup_cons]
        refine ⟨?_, visitChildren_nodup cs (childPath parent name) hwf hnd⟩
        intro hmem
        rcases List.mem_map.mp hmem with ⟨e, he, hfst⟩
        rcases mem_visitChildren.mp he with ⟨c, hc, hec⟩
        have hpe := visit_properExt hec
        rw [hfst] at hpe
        exact properExt_irrefl _ hpe
termination_by n _ _ => sizeOf n
decreasing_by
  simp only [FSNode.dir.sizeOf_spec]
  omega

theorem visitChildren_nodup : ∀ (cs : List FSNode) (parent : Str),
    (∀ c ∈ cs, WFb c = true) → (cs.map nodeName).Nodup →
    ((visitChildren parent cs).map Prod.fst).Nodup
  | cs, parent, hwf, hnd => by
      rw [visitChildren_eq_flatMap, List.map_flatMap, List.nodup_flatMap]
      constructor
      · intro c hc
        exact visit_nodup c parent (hwf c hc)
      · have hpne : cs.Pairwise (fun a b => nodeName a ≠ nodeName b) :=
          List.pairwise_map.mp hnd
        refine List.Pairwise.imp_of_mem ?_ hpne
        intro a b ha hb hne
        intro q hqa hqb
        rcases List.mem_map.mp hqa with ⟨e, he, hfe⟩
        rcases List.mem_map.mp hqb with ⟨f, hf, hff⟩
        have h1 := visit_inNs a parent e he
        have h2 := visit_inNs b parent f hf
        rw [hfe] at h1
        rw [hff] at h2
        exact hne (inNs_name_eq (goodName_no_slash (WFb_goodName (hwf a ha)))
          (goodName_no_slash (WFb_goodName (hwf b hb))) h1 h2)
termination_by cs _ _ _ => sizeOf cs
decreasing_by
  exact List.sizeOf_lt_of_mem hc

end

theorem visit_pruned : ∀ (n : FSNode) (parent : Str), WFb n = true →
    ∀ e ∈ visitChild parent n, e.2 = Outcome.excludedByDirRule →
    ∀ x ∈ visitChild parent n, ¬ properExt e.1 x.1
  | FSNode.walkError name, parent, _ => by
      intro e he h2 x hx
      simp only [visitChild, List.mem_singleton] at he
      rw [he] at h2
      simp at h2
  | FSNode.file name size, parent, _ => by
      intro e he h2 x hx
      unfold visitChild at he
      split at he
      · simp only [List.mem_singleton] at he
        rw [he] at h2
        simp at h2
      · split at he <;> (simp only [List.mem_singleton] at he; rw [he] at h2; simp at h2)
  | FSNode.dir name cs, parent, h => by
      intro e he h2 x hx
      unfold visitChild at he hx
      by_cases hm : dirMatches (childPath parent name) = true
      · rw [if_pos hm] at he hx
        simp only [List.mem_singleton] at he hx
        rw [he, hx]
        exact properExt_irrefl _
      · rw [if_neg hm] at he hx
        rw [WFb_dir_iff] at h
        obtain ⟨hg, hnd, hwf⟩ := h
        rcases List.mem_cons.mp he with he0 | he1
        · rw [he0] at h2
          simp at h2
        · rcases mem_visitChildren.mp he1 with ⟨c, hc, hec⟩
          intro hpx
          rcases List.mem_cons.mp hx with hx0 | hx1
          · rw [hx0] at hpx
            have l1 := properExt_length (visit_properExt hec)
            have l2 := properExt_length hpx
            simp only [] at l2
            omega
          · rcases mem_visitChildren.mp hx1 with ⟨c1, hc1, hxc⟩
            by_cases hcc : c = c1
            · subst hcc
              exact visit_pruned c (childPath parent name) (hwf c hc) e hec h2 x hxc hpx
            · have hnames : nodeName c ≠ nodeName c1 := fun heq =>
                hcc (List.inj_on_of_nodup_map hnd hc hc1 heq)
              have hin1 : inNs (childPath parent name) (nodeName c) x.1 :=
                inNs_ext (visit_inNs c _ e hec) hpx
              have hin2 : inNs (childPath parent name) (nodeName c1) x.1 :=
                visit_inNs c1 _ x hxc
              exact hnames (inNs_name_eq (goodName_no_slash (WFb_goodName (hwf c hc)))
                (goodName_no_slash (WFb_goodName (hwf c1 hc1))) hin1 hin2)
termination_by n _ _ => sizeOf n
decreasing_by
  have h1 := List.sizeOf_lt_of_mem hc
  simp only [FSNode.dir.sizeOf_spec]
  omega

theorem canon_name (n : FSNode) : nodeName (canon n) = nodeName n := by
  cases n <;> rfl

theorem mem_sortByName {c : FSNode} {cs : List FSNode} :
    c ∈ sortByName cs ↔ c ∈ cs :=
  (List.perm_insertionSort nameLe cs).mem_iff

theorem sortByName_names_perm (cs : List FSNode) :
    ((sortByName cs).map nodeName).Perm (cs.map nodeName) :=
  (List.perm_insertionSort nameLe cs).map nodeName

theorem canon_WF : ∀ (n : FSNode), WFb n = true → WFb (canon n) = true
  | FSNode.file name size, h => by simpa [canon] using h
  | FSNode.walkError name, h => by simpa [canon] using h
  | FSNode.dir name cs, h => by
      rw [WFb_dir_iff] at h
      obtain ⟨h1, h2, h3⟩ := h
      have hcanon : canon (FSNode.dir name cs) =
          FSNode.dir name (sortByName (canonList cs)) := rfl
      rw [hcanon, WFb_dir_iff]
      refine ⟨h1, ?_, ?_⟩
      · rw [(sortByName_names_perm (canonList cs)).nodup_iff]
        rw [canonList_eq_map, List.map_map]
        have hfn : nodeName ∘ canon = nodeName := funext canon_name
        rw [hfn]
        exact h2
      · intro c hc
        rw [mem_sortByName, canonList_eq_map] at hc
        rcases List.mem_map.mp hc with ⟨c0, hc0, hce⟩
        rw [← hce]
        exact canon_WF c0 (h3 c0 hc0)
termination_by n _ => sizeOf n
decreasing_by
  have := List.sizeOf_lt_of_mem hc0
  simp only [FSNode.dir.sizeOf_spec]
  omega

theorem scanEntryCore_paths (p : Str) (r : Option FSNode) :
    ∀ x ∈ scanEntryCore (p, r), x.1 = p ∨ properExt p x.1 := by
  cases r with
  | none => simp [scanEntryCore]
  | some n =>
      cases n with
      | file name size =>
          intro x hx
          simp only [scanEntryCore] at hx
          have hx1 : x.1 = p := by
            split at hx
            · simp only [List.mem_singleton] at hx
              rw [hx]
            · split at hx <;> (simp only [List.mem_singleton] at hx; rw [hx])
          exact Or.inl hx1
      | dir name cs =>
          intro x hx
          simp only [scanEntryCore] at hx
          rcases List.mem_cons.mp hx with h0 | h1
          · exact Or.inl (by rw [h0])
          · rcases mem_visitChildren.mp h1 with ⟨c, hc, hxc⟩
            exact Or.inr (visit_properExt hxc)
      | walkError name => simp [scanEntryCore]

theorem scanEntry_paths (e : IncludeEntry) :
    ∀ x ∈ scanEntry e, x.1 = e.1 ∨ properExt e.1 x.1 := by
  obtain ⟨p, r⟩ := e
  have hse : scanEntry (p, r) = scanEntryCore (p, r.map canon) := rfl
  rw [hse]
  exact scanEntryCore_paths p (r.map canon)

theorem scanEntry_nodup (e : IncludeEntry) (h : entryWF e = true) :
    ((scanEntry e).map Prod.fst).Nodup := by
  obtain ⟨p, r⟩ := e
  cases r with
  | none => simp [scanEntry, canonEntry, scanEntryCore]
  | some n =>
      have hwfc : WFb (canon n) = true := canon_WF n (by simpa [entryWF] using h)
      have hse : scanEntry (p, some n) = scanEntryCore (p, some (canon n)) := rfl
      rw [hse]
      cases hcn : canon n with
      | file name size =>
          simp only [scanEntryCore]
          split
          · simp
          · split <;> simp
      | walkError name => simp [scanEntryCore]
      | dir name cs =>
          rw [hcn, WFb_dir_iff] at hwfc
          obtain ⟨h1, h2, h3⟩ := hwfc
          simp only [scanEntryCore, List.map_cons, List.nodup_cons]
          refine ⟨?_, visitChildren_nodup cs p h3 h2⟩
          intro hmem
          rcases List.mem_map.mp hmem with ⟨x, hx, hfx⟩
          rcases mem_visitChildren.mp hx with ⟨c, hc, hxc⟩
          have hpe := visit_properExt hxc
          rw [hfx] at hpe
          exact properExt_irrefl _ hpe

theorem slash_pref_cases {a b : Str} (h : a ++ ['/'] <+: b ++ ['/']) :
    a = b ∨ properExt a b := by
  have hlen := h.length_le
  simp only [List.length_append, List.length_singleton] at hlen
  by_cases heq : a.length = b.length
  · left
    rcases h with ⟨t, ht⟩
    have ht0 : t = [] := by
      have := congrArg List.length ht
      simp only [List.length_append, List.length_singleton] at this
      rcases t with _ | ⟨c, t'⟩
      · rfl
      · simp at this
        omega
    rw [ht0, List.append_nil] at ht
    exact (List.append_inj ht (by simpa using heq)).1
  · right
    have hlt : a.length + 1 ≤ b.length := by omega
    have h1 : a ++ ['/'] = List.take (a.length + 1) (b ++ ['/']) := by
      have := List.prefix_iff_eq_take.mp h
      simpa using this
    rw [List.take_append_of_le_length hlt] at h1
    show a ++ ['/'] <+: b
    rw [h1]
    exact List.take_prefix _ _

theorem nonNested_no_common {p₁ p₂ q : Str} (hnn : NonNested p₁ p₂)
    (h1 : q = p₁ ∨ properExt p₁ q) (h2 : q = p₂ ∨ properExt p₂ q) : False := by
  obtain ⟨hne, h12, h21⟩ := hnn
  rcases h1 with h1e | hx1
  · rcases h2 with h2e | hx2
    · exact hne (h1e.symm.trans h2e)
    · rw [h1e] at hx2
      exact h21 hx2
  · rcases h2 with h2e | hx2
    · rw [h2e] at hx1
      exact h12 hx1
    · rcases pref_total hx1 hx2 with hp | hp
      · rcases slash_pref_cases hp with he | hpe
        · exact hne he
        · exact h12 hpe
      · rcases slash_pref_cases hp with he | hpe
        · exact hne he.symm
        · exact h21 hpe

theorem scanTrace_nodup (l : List IncludeEntry)
    (hwf : ∀ e ∈ l, entryWF e = true)
    (hnn : l.Pairwise (fun a b => NonNested a.1 b.1)) :
    ((scanTrace l).map Prod.fst).Nodup := by
  unfold scanTrace
  rw [List.map_flatMap, List.nodup_flatMap]
  refine ⟨fun e he => scanEntry_nodup e (hwf e he), ?_⟩
  refine List.Pairwise.imp ?_ hnn
  intro a b hab
  intro q hqa hqb
  rcases List.mem_map.mp hqa with ⟨x, hx, hfx⟩
  rcases List.mem_map.mp hqb with ⟨y, hy, hfy⟩
  have p1 := scanEntry_paths a x hx
  have p2 := scanEntry_paths b y hy
  rw [hfx] at p1
  rw [hfy] at p2
  exact nonNested_no_common hab p1 p2

theorem count_filterMap {α β : Type _} [BEq β] [LawfulBEq β] (f : α → Option β) (a : β) :
    ∀ l : List α, (l.filterMap f).count a = l.countP fun x => f x == some a := by
  intro l
  induction l with
  | nil => rfl
  | cons x xs ih =>
      rw [List.filterMap_cons, List.countP_cons]
      cases hfx : f x with
      | none => simp [ih]
      | some b => rw [List.count_cons, ih, Option.some_beq_some]

theorem splitNL_ne_nil : ∀ (s : Str), splitNL s ≠ [] := by
  intro s
  cases s with
  | nil => simp [splitNL]
  | cons c cs =>
      simp only [splitNL]
      split <;> simp

theorem splitNL_append (a : Str) (b : Str) (h : '\n' ∉ a) :
    splitNL (a ++ b) = (a ++ (splitNL b).headD []) :: (splitNL b).tail := by
  induction a with
  | nil =>
      cases hsb : splitNL b with
      | nil => exact absurd hsb (splitNL_ne_nil b)
      | cons s ss => simp [hsb]
  | cons c cs ih =>
      have hc : ¬ c = '\n' := fun he => h (he ▸ List.mem_cons_self c cs)
      have h' : '\n' ∉ cs := fun hm => h (List.mem_cons_of_mem c hm)
      simp only [List.cons_append, splitNL, if_neg hc, List.append_eq]
      rw [ih h']
      simp

theorem splitNL_break (a b : Str) (h : '\n' ∉ a) :
    splitNL (a ++ '\n' :: b) = a :: splitNL b := by
  rw [splitNL_append a ('\n' :: b) h]
  simp [splitNL]

theorem foldl_append_flatten {α : Type _} (g : α → Str) :
    ∀ (l : List α) (acc : Str),
      l.foldl (fun sb x => sb ++ g x) acc = acc ++ (l.map g).flatten := by
  intro l
  induction l with
  | nil => intro acc; simp
  | cons x xs ih => intro acc; simp [List.foldl_cons, ih]

theorem gen_eq (ps : List Str) :
    GenerateGitignoreContent ps =
      ("# Giterdone generated .gitignore\n# Files and directories automatically excluded by Giterdone\n\n").toList
        ++ (ps.map fun e => e ++ ['\n']).flatten := by
  unfold GenerateGitignoreContent
  rw [foldl_append_flatten]
  congr 1

theorem splitNL_flatten : ∀ (ps : List Str), (∀ e ∈ ps, '\n' ∉ e) →
    splitNL ((ps.map fun e => e ++ ['\n']).flatten) = ps ++ [[]] := by
  intro ps
  induction ps with
  | nil => intro _; rfl
  | cons e es ih =>
      intro h
      simp only [List.map_cons, List.flatten_cons, List.append_assoc,
        List.singleton_append]
      rw [splitNL_break e _ (h e (List.mem_cons_self e es))]
      rw [ih fun x hx => h x (List.mem_cons_of_mem e hx)]
      rfl

theorem fileMatches_iff (b : Str) :
    fileMatches b = true ↔ ∃ pattern ∈ excludePatterns,
      endsWith pattern ['/'] = false ∧
        (startsWith b (trimSuffix pattern ['*']) = true ∨
          endsWith b (trimLeading pattern ['*']) = true) := by
  unfold fileMatches
  rw [List.any_eq_true]
  constructor
  · rintro ⟨pattern, hmem, hcond⟩
    rw [Bool.and_eq_true, Bool.not_eq_true', Bool.or_eq_true] at hcond
    exact ⟨pattern, hmem, hcond.1, hcond.2⟩
  · rintro ⟨pattern, hmem, h1, h2⟩
    refine ⟨pattern, hmem, ?_⟩
    rw [Bool.and_eq_true, Bool.not_eq_true', Bool.or_eq_true]
    exact ⟨h1, h2⟩

theorem dirMatches_iff (path : Str) :
    dirMatches path = true ↔ ∃ pattern ∈ excludePatterns,
      endsWith pattern ['/'] = true ∧ endsWith path pattern.dropLast = true := by
  unfold dirMatches
  rw [List.any_eq_true]
  constructor
  · rintro ⟨pattern, hmem, hcond⟩
    rw [Bool.and_eq_true] at hcond
    exact ⟨pattern, hmem, hcond.1, hcond.2⟩
  · rintro ⟨pattern, hmem, h1, h2⟩
    exact ⟨pattern, hmem, by rw [Bool.and_eq_true]; exact ⟨h1, h2⟩⟩

theorem trimSuffix_of_not_mem {s : Str} {c : Char} (h : c ∉ s) :
    trimSuffix s [c] = s := by
  unfold trimSuffix
  rw [if_neg]
  rintro ⟨t, ht⟩
  exact h (by rw [← ht]; exact List.mem_append_right t (List.mem_cons_self c []))

theorem trimLeading_of_not_mem {s : Str} {c : Char} (h : c ∉ s) :
    trimLeading s [c] = s := by
  unfold trimLeading
  rw [if_neg]
  rintro ⟨t, ht⟩
  exact h (by rw [← ht]; exact List.mem_append_left t (List.mem_cons_self c []))

theorem dirMatches_vendor (q : Str) :
    dirMatches (q ++ ("vendor").toList) = true := by
  rw [dirMatches_iff]
  refine ⟨("vendor/").toList, by decide, by decide, ?_⟩
  have hd : (("vendor/").toList).dropLast = ("vendor").toList := by decide
  rw [hd]
  exact endsWith_append q _

theorem visit_vendor_dir (parent : Str) (cs : List FSNode) :
    visitChild parent (FSNode.dir (("vendor").toList) cs) =
      [(childPath parent (("vendor").toList), Outcome.excludedByDirRule)] := by
  unfold visitChild
  rw [if_pos]
  have hcp : childPath parent (("vendor").toList) =
      (parent ++ ['/']) ++ ("vendor").toList := by simp [childPath]
  rw [hcp]
  exact dirMatches_vendor (parent ++ ['/'])

theorem excludes_count_vendor (l : List IncludeEntry) :
    (ScanFiles l).2.count (("vendor/").toList) =
      (scanTrace l).countP fun e =>
        decide (e.2 = Outcome.excludedByDirRule) &&
          (baseName e.1 == ("vendor").toList) := by
  unfold ScanFiles
  rw [count_filterMap]
  apply List.countP_congr
  intro e _
  obtain ⟨q, o⟩ := e
  have hbq : baseName q ≠ ['v', 'e', 'n', 'd', 'o', 'r', '/'] := by
    intro he
    have hns := baseName_no_slash q
    rw [he] at hns
    exact hns (by decide)
  have key : (baseName q ++ ['/'] = ['v', 'e', 'n', 'd', 'o', 'r', '/']) ↔
      baseName q = ['v', 'e', 'n', 'd', 'o', 'r'] := by
    constructor
    · intro he
      have he' : baseName q ++ ['/'] = ['v', 'e', 'n', 'd', 'o', 'r'] ++ ['/'] := he
      exact List.append_cancel_right he'
    · intro he
      rw [he]
      rfl
  cases o <;>
    simp only [excludeRecord, Option.some_beq_some, decide_eq_true_eq]
  case included => simp
  case excludedBySize =>
      simp
      exact hbq
  case excludedByPattern =>
      simp
      exact hbq
  case excludedByDirRule =>
      simp
      exact key
  case skipStatError => simp
  case descended => simp
  case rootSkipped => simp

/-! Claim theorems. -/

/-- C1 counterexample: the source tests the directory pattern as a suffix of
the full walk path, not as equality with the base name.  A directory named
`myvendor` under include root `r` equals no pattern with the trailing `/`
stripped (`specDirMatches` is false), yet the walk prunes it and records
`myvendor/`, so the claimed "matches if and only if its base name equals the
pattern with the trailing `/` stripped" is false at this input. -/
theorem C1_cex_dir_suffix_match :
    specDirMatches (("myvendor").toList) = false ∧
    visitChild (("r").toList)
        (FSNode.dir (("myvendor").toList) [FSNode.file (("a.txt").toList) 1]) =
      [(("r/myvendor").toList, Outcome.excludedByDirRule)] ∧
    ScanFiles [(("r").toList, some (FSNode.dir (("r").toList)
        [FSNode.dir (("myvendor").toList) [FSNode.file (("a.txt").toList) 1]]))] =
      ([], [("myvendor/").toList]) :=
  ⟨by decide, by decide, by decide⟩

/-- C1 (amended): for every directory entry encountered during a walk other
than the walk root, directory-type exclude patterns are exactly those ending
in `/`, and the directory is pruned if and only if its full walk path ends
with such a pattern with the trailing `/` stripped (a weaker test than
base-name equality); on a match the directory's base name plus `/` is
recorded in patternsToExclude and the directory is not descended into, and
otherwise the walk descends into it. -/
theorem C1_dir_rule_full_path_suffix (parent name : Str) (children : List FSNode)
    (hname : '/' ∉ name) :
    (visitChild parent (FSNode.dir name children) =
        [(childPath parent name, Outcome.excludedByDirRule)] ↔
      ∃ pattern ∈ excludePatterns, endsWith pattern ['/'] = true ∧
        endsWith (childPath parent name) pattern.dropLast = true) ∧
    (dirMatches (childPath parent name) = true →
      (visitChild parent (FSNode.dir name children)).filterMap excludeRecord =
        [name ++ ['/']]) ∧
    (dirMatches (childPath parent name) = false →
      visitChild parent (FSNode.dir name children) =
        (childPath parent name, Outcome.descended) ::
          visitChildren (childPath parent name) children) := by
  refine ⟨?_, ?_, ?_⟩
  · rw [← dirMatches_iff]
    constructor
    · intro h
      by_contra hm
      rw [Bool.not_eq_true] at hm
      unfold visitChild at h
      rw [if_neg (by rw [hm]; exact Bool.false_ne_true)] at h
      simp at h
    · intro h
      unfold visitChild
      rw [if_pos h]
  · intro h
    unfold visitChild
    rw [if_pos h]
    simp [excludeRecord, baseName_childPath parent name hname]
  · intro h
    unfold visitChild
    rw [if_neg (by rw [h]; exact Bool.false_ne_true)]

/-- C1 witness: a directory literally named `vendor` under root `r` is
pruned and recorded as `vendor/`. -/
theorem C1_dir_rule_witness :
    (visitChild (("r").toList) (FSNode.dir (("vendor").toList) [])).filterMap
      excludeRecord = [("vendor/").toList] := by
  have h := (C1_dir_rule_full_path_suffix (("r").toList) (("vendor").toList) []
    (by decide)).2.1 (by decide)
  exact h

/-- C2: the file test matches exactly when some non-directory pattern either
starts the base name after stripping a trailing `*`, or ends the base name
after stripping a leading `*`; in particular `report.log` matches `*.log` by
suffix and is excluded: its base name goes to patternsToExclude and nothing
goes to filesToInclude. -/
theorem C2_file_rule (b : Str) :
    (fileMatches b = true ↔ ∃ pattern ∈ excludePatterns,
      endsWith pattern ['/'] = false ∧
        (startsWith b (trimSuffix pattern ['*']) = true ∨
          endsWith b (trimLeading pattern ['*']) = true)) ∧
    fileMatches (("report.log").toList) = true ∧
    ScanFiles [(("report.log").toList,
        some (FSNode.file (("report.log").toList) 10))] =
      ([], [("report.log").toList]) :=
  ⟨fileMatches_iff b, by decide, by decide⟩

/-- C3: GenerateGitignoreContent yields exactly the two fixed header comment
lines, a blank line, then each input entry on its own line in the order
received (split at newlines, with the terminal newline yielding one final
empty piece); for input ["*.log", "vendor/"] the output is exactly the
header lines, a blank line, then `*.log`, then `vendor/`.  As a Lean
function of its argument the model is pure by construction. -/
theorem C3_gitignore_content :
    (∀ ps : List Str, (∀ e ∈ ps, '\n' ∉ e) →
      splitNL (GenerateGitignoreContent ps) =
        ("# Giterdone generated .gitignore").toList ::
          ("# Files and directories automatically excluded by Giterdone").toList ::
          [] :: (ps ++ [[]])) ∧
    GenerateGitignoreContent [("*.log").toList, ("vendor/").toList] =
      ("# Giterdone generated .gitignore\n# Files and directories automatically excluded by Giterdone\n\n*.log\nvendor/\n").toList := by
  constructor
  · intro ps h
    rw [gen_eq]
    have hh : ("# Giterdone generated .gitignore\n# Files and directories automatically excluded by Giterdone\n\n").toList ++
          (ps.map fun e => e ++ ['\n']).flatten =
        ("# Giterdone generated .gitignore").toList ++ '\n' ::
          (("# Files and directories automatically excluded by Giterdone").toList ++
            '\n' :: '\n' :: (ps.map fun e => e ++ ['\n']).flatten) := by
      have hsplit : ("# Giterdone generated .gitignore\n# Files and directories automatically excluded by Giterdone\n\n").toList =
          ("# Giterdone generated .gitignore").toList ++ '\n' ::
            (("# Files and directories automatically excluded by Giterdone").toList ++
              ['\n', '\n']) := by decide
      rw [hsplit]
      simp
    rw [hh, splitNL_break _ _ (by decide), splitNL_break _ _ (by decide)]
    have hnl : splitNL ('\n' :: (ps.map fun e => e ++ ['\n']).flatten) =
        [] :: splitNL ((ps.map fun e => e ++ ['\n']).flatten) := by
      simp [splitNL]
    rw [hnl, splitNL_flatten ps h]
  · decide

/-- C3 witness: the shape theorem applied to the one-entry list. -/
theorem C3_gitignore_witness :
    splitNL (GenerateGitignoreContent [("*.log").toList]) =
      [("# Giterdone generated .gitignore").toList,
       ("# Files and directories automatically excluded by Giterdone").toList,
       [], ("*.log").toList, []] := by
  have h := C3_gitignore_content.1 [("*.log").toList] (by decide)
  simpa using h

/-- C4 counterexample: a tree whose only directory named `vendor` sits inside
a `build` directory.  The walk prunes `build` first and never visits the
`vendor` directory, so `vendor/` appears zero times in patternsToExclude,
refuting the claimed "exactly once". -/
theorem C4_cex_nested_vendor :
    hasDirNamed (("vendor").toList)
      (FSNode.dir (("root").toList) [FSNode.dir (("build").toList)
        [FSNode.dir (("vendor").toList) [FSNode.file (("a.txt").toList) 1]]]) = true ∧
    ¬ ((ScanFiles [(("root").toList, some (FSNode.dir (("root").toList)
        [FSNode.dir (("build").toList) [FSNode.dir (("vendor").toList)
          [FSNode.file (("a.txt").toList) 1]]]))]).2.count (("vendor/").toList) = 1) ∧
    ScanFiles [(("root").toList, some (FSNode.dir (("root").toList)
        [FSNode.dir (("build").toList) [FSNode.dir (("vendor").toList)
          [FSNode.file (("a.txt").toList) 1]]]))] = ([], [("build/").toList]) :=
  ⟨by decide, by decide, by decide⟩

/-- C4 (amended): every directory named `vendor` that the walk actually
visits is pruned (its visit trace is the single pruning record, so nothing
under it is visited or included), `vendor/` is recorded in patternsToExclude
exactly as many times as the trace prunes a directory whose base name is
`vendor` (possibly zero when every such directory sits inside another pruned
directory, or more than once when several are visited), and in a well-formed
tree no visited path extends the path of any pruned directory. -/
theorem C4_vendor_pruned_per_visit :
    (∀ (parent : Str) (cs : List FSNode),
      visitChild parent (FSNode.dir (("vendor").toList) cs) =
        [(childPath parent (("vendor").toList), Outcome.excludedByDirRule)]) ∧
    (∀ l : List IncludeEntry,
      (ScanFiles l).2.count (("vendor/").toList) =
        (scanTrace l).countP fun e =>
          decide (e.2 = Outcome.excludedByDirRule) &&
            (baseName e.1 == ("vendor").toList)) ∧
    (∀ (n : FSNode) (parent : Str), WFb n = true →
      ∀ e ∈ visitChild parent n, e.2 = Outcome.excludedByDirRule →
        ∀ x ∈ visitChild parent n, ¬ properExt e.1 x.1) :=
  ⟨visit_vendor_dir, excludes_count_vendor, fun n parent h => visit_pruned n parent h⟩

/-- C4 witness: in a concrete well-formed tree the pruned `vendor` directory
admits no visited extension; in particular the included sibling file is not
below it. -/
theorem C4_vendor_witness :
    ¬ properExt (("r/d/vendor").toList) (("r/d/a.txt").toList) :=
  C4_vendor_pruned_per_visit.2.2
    (FSNode.dir (("d").toList)
      [FSNode.dir (("vendor").toList) [], FSNode.file (("a.txt").toList) 1])
    (("r").toList) (by decide)
    ((("r/d/vendor").toList, Outcome.excludedByDirRule)) (by decide) (by decide)
    ((("r/d/a.txt").toList, Outcome.included)) (by decide)

/-- C5: an include path that stats as a plain file strictly larger than
100 MiB is excluded regardless of name: its base name is appended to
patternsToExclude at its position, it contributes nothing to filesToInclude,
and the scan of the surrounding include list proceeds normally. -/
theorem C5_oversize_excluded (pre post : List IncludeEntry) (p name : Str)
    (size : Nat) (h : size > maxFileSize) :
    ScanFiles (pre ++ (p, some (FSNode.file name size)) :: post) =
      ((ScanFiles pre).1 ++ (ScanFiles post).1,
       (ScanFiles pre).2 ++ baseName p :: (ScanFiles post).2) := by
  have hentry : scanEntry (p, some (FSNode.file name size)) =
      [(p, Outcome.excludedBySize)] := by
    show scanEntryCore (p, some (canon (FSNode.file name size))) = _
    simp [canon, scanEntryCore, h]
  unfold ScanFiles scanTrace
  rw [List.flatMap_append, List.flatMap_cons, hentry]
  simp [List.filterMap_append, includeRecord, excludeRecord, scanTrace]

/-- C5 witness: a 101 MiB file named `huge.txt`, which no pattern matches,
is still excluded. -/
theorem C5_oversize_witness :
    ScanFiles [(("huge.txt").toList,
        some (FSNode.file (("huge.txt").toList) (101 * 1024 * 1024)))] =
      ([], [("huge.txt").toList]) := by
  have h := C5_oversize_excluded [] [] (("huge.txt").toList) (("huge.txt").toList)
    (101 * 1024 * 1024) (by decide)
  simpa using h

/-- C6: an include path whose stat fails contributes no entry to either
output and does not disturb the processing of the other include paths: the
scan result equals that of the list without the failing path. -/
theorem C6_missing_path_skipped (pre post : List IncludeEntry) (p : Str) :
    ScanFiles (pre ++ (p, none) :: post) = ScanFiles (pre ++ post) := by
  unfold ScanFiles scanTrace
  rw [List.flatMap_append, List.flatMap_cons, List.flatMap_append]
  have h0 : scanEntry (p, none) = [] := rfl
  rw [h0]
  simp

/-- C7 counterexample: a visited plain subdirectory (`r/src`, which matches
no pattern and is descended into) receives none of the five classifications
named by the claim, refuting "classified into exactly one of {included,
excluded-by-size, excluded-by-pattern, excluded-by-directory-rule,
skip-on-stat-error}" for every visited entry. -/
theorem C7_cex_descended_dir :
    ((("r/src").toList, Outcome.descended) ∈
      scanTrace [(("r").toList, some (FSNode.dir (("r").toList)
        [FSNode.dir (("src").toList) [FSNode.file (("a.txt").toList) 1]]))]) ∧
    FiveClass Outcome.descended = false :=
  ⟨by decide, by decide⟩

/-- C7 (amended): every visited entry receives exactly one outcome from the
five spec classes extended with descended-into (non-matching directories)
and root-skipped (each walk root); for well-formed trees and include paths
none of which equals or lies inside another, every visited path occurs
exactly once in the trace, a single visit never feeds both outputs, and no
path in filesToInclude has a visit contributing to patternsToExclude. -/
theorem C7_classification (l : List IncludeEntry)
    (hwf : ∀ e ∈ l, entryWF e = true)
    (hnn : l.Pairwise fun a b => NonNested a.1 b.1) :
    ((scanTrace l).map Prod.fst).Nodup ∧
    (∀ e ∈ scanTrace l, FiveClass e.2 = true ∨ e.2 = Outcome.descended ∨
      e.2 = Outcome.rootSkipped) ∧
    (∀ e ∈ scanTrace l,
      ¬((includeRecord e).isSome = true ∧ (excludeRecord e).isSome = true)) ∧
    (∀ q ∈ (ScanFiles l).1, ∀ e ∈ scanTrace l, e.1 = q →
      excludeRecord e = none) := by
  refine ⟨scanTrace_nodup l hwf hnn, ?_, ?_, ?_⟩
  · intro e _
    obtain ⟨q, o⟩ := e
    cases o <;> simp [FiveClass]
  · intro e _
    obtain ⟨q, o⟩ := e
    cases o <;> simp [includeRecord, excludeRecord]
  · intro q hq e he heq
    rcases List.mem_filterMap.mp hq with ⟨f, hf, hr⟩
    have hfq : f.1 = q ∧ f.2 = Outcome.included := by
      obtain ⟨q₀, o₀⟩ := f
      cases o₀ <;> simp [includeRecord] at hr <;> exact ⟨hr, rfl⟩
    have hnd := scanTrace_nodup l hwf hnn
    have hef : e = f :=
      List.inj_on_of_nodup_map hnd he hf (by rw [heq, hfq.1])
    rw [hef]
    obtain ⟨q₀, o₀⟩ := f
    have ho : o₀ = Outcome.included := hfq.2
    rw [ho]
    rfl

/-- C7 witness: the amended classification applied to a concrete two-entry
include list. -/
theorem C7_classification_witness :
    ((scanTrace [(("a").toList, some (FSNode.dir (("a").toList)
        [FSNode.file (("x.txt").toList) 1])),
      (("b.txt").toList, some (FSNode.file (("b.txt").toList) 2))]).map
        Prod.fst).Nodup :=
  (C7_classification _ (by decide) (by decide)).1

/-- C8: two runs of ScanFiles over the same unchanged directory tree return
identical filesToInclude and patternsToExclude.  Two observations of the
same tree may hand the scanner its sibling lists in different storage
orders; since the walk sorts every directory's entries, any two include
lists with the same canonical form (same paths, same trees up to sibling
order) scan to the same result. -/
theorem C8_scan_deterministic (l₁ l₂ : List IncludeEntry)
    (h : l₁.map canonEntry = l₂.map canonEntry) :
    ScanFiles l₁ = ScanFiles l₂ := by
  have key : ∀ l : List IncludeEntry,
      scanTrace l = (l.map canonEntry).flatMap scanEntryCore := by
    intro l
    unfold scanTrace
    induction l with
    | nil => rfl
    | cons e es ih =>
        rw [List.map_cons, List.flatMap_cons, List.flatMap_cons, ih]
        rfl
  unfold ScanFiles
  rw [key l₁, key l₂, h]

/-- C8 witness: the same tree observed with its two sibling files in either
storage order scans to the same result. -/
theorem C8_scan_deterministic_witness :
    ScanFiles [(("r").toList, some (FSNode.dir (("r").toList)
        [FSNode.file (("b").toList) 1, FSNode.file (("a").toList) 2]))] =
      ScanFiles [(("r").toList, some (FSNode.dir (("r").toList)
        [FSNode.file (("a").toList) 2, FSNode.file (("b").toList) 1]))] :=
  C8_scan_deterministic _ _ (by rfl)

/-- C9: a star-free non-directory pattern such as `.DS_Store` excludes not
only base names equal to it but every base name that merely starts with it
or merely ends with it, because the stripped pattern equals the pattern
itself in both the leading-part test and the suffix test; in particular
`.DS_Store_backup` and `old.DS_Store` are both excluded. -/
theorem C9_exact_name_loose :
    (∀ pattern ∈ excludePatterns, '*' ∉ pattern →
      endsWith pattern ['/'] = false →
      ∀ b : Str, (startsWith b pattern = true ∨ endsWith b pattern = true) →
        fileMatches b = true) ∧
    ScanFiles [((".DS_Store_backup").toList,
        some (FSNode.file ((".DS_Store_backup").toList) 1)),
      (("old.DS_Store").toList,
        some (FSNode.file (("old.DS_Store").toList) 1))] =
      ([], [(".DS_Store_backup").toList, ("old.DS_Store").toList]) := by
  constructor
  · intro pattern hmem hstar hdir b hb
    rw [fileMatches_iff]
    refine ⟨pattern, hmem, hdir, ?_⟩
    rw [trimSuffix_of_not_mem hstar, trimLeading_of_not_mem hstar]
    exact hb
  · decide

/-- C9 witness: the general star-free rule applied to pattern `.DS_Store`
and the base name `.DS_Store_backup`. -/
theorem C9_exact_name_witness :
    fileMatches ((".DS_Store_backup").toList) = true :=
  C9_exact_name_loose.1 ((".DS_Store").toList) (by decide) (by decide)
    (by decide) _ (Or.inl (by decide))

/-- C10: when an include path is itself a directory whose path matches a
directory-type exclude pattern, the walk root is skipped before any pattern
test: the trace starts with the root-skip visit followed by the normal
traversal of the children, and no exclude entry is ever recorded at the
root path. -/
theorem C10_root_not_pruned (p name : Str) (children : List FSNode)
    (h : dirMatches p = true) :
    scanEntry (p, some (FSNode.dir name children)) =
      (p, Outcome.rootSkipped) :: visitChildren p (sortByName (canonList children)) ∧
    (∀ e ∈ scanEntry (p, some (FSNode.dir name children)),
      excludeRecord e ≠ none → e.1 ≠ p) := by
  have heq : scanEntry (p, some (FSNode.dir name children)) =
      (p, Outcome.rootSkipped) ::
        visitChildren p (sortByName (canonList children)) := rfl
  refine ⟨heq, ?_⟩
  intro e he hex
  rw [heq] at he
  rcases List.mem_cons.mp he with h0 | h1
  · rw [h0] at hex
    simp [excludeRecord] at hex
  · rcases mem_visitChildren.mp h1 with ⟨c, hc, hec⟩
    have hlen := properExt_length (visit_properExt hec)
    intro heqp
    rw [heqp] at hlen
    omega

/-- C10 witness: a directory literally named `vendor` listed directly as an
include path is not pruned; its file is scanned and included. -/
theorem C10_root_not_pruned_witness :
    scanEntry ((("vendor").toList),
        some (FSNode.dir (("vendor").toList) [FSNode.file (("a.txt").toList) 1])) =
      [(("vendor").toList, Outcome.rootSkipped),
       (("vendor/a.txt").toList, Outcome.included)] := by
  have h := (C10_root_not_pruned (("vendor").toList) (("vendor").toList)
    [FSNode.file (("a.txt").toList) 1] (by decide)).1
  rw [h]
  decide

end Giterdone
